import Mathlib

/-!
Verification of the single-qubit sonifier (Single_Mubit_Game.py).

The development embeds the two core components of the program:

* the state engine: a two-amplitude complex state vector, mutated by the
  gates bound to keys in key_press (Hadamard, the Paulis, and the
  fixed-angle rotations RX/RY/RZ of plus or minus pi/6);
* the sonifier (function sound): extraction of the Bloch angles from the
  state vector, synthesis of a 0.5 s stereo buffer at 44100 Hz, peak
  normalization and 16-bit quantization.

Real and complex arithmetic is embedded exactly (the floating point of the
source is modelled by the real numbers).
-/

noncomputable section

open Real

/-- Modelled from the spec: the gate catalog of section 4.1.  The gate
matrices themselves live in the qiskit library, which is not part of this
repository; the spec fixes them as H = 1/sqrt 2 [[1,1],[1,-1]], the
standard Pauli matrices X, Y, Z, and the standard axis rotation matrices
RX, RY, RZ by an angle theta. -/
inductive Gate : Type
  | H : Gate
  | X : Gate
  | Y : Gate
  | Z : Gate
  | RX : ℝ → Gate
  | RY : ℝ → Gate
  | RZ : ℝ → Gate

/-- Modelled from the spec: application of one gate matrix to the state
vector, a pure matrix-vector multiply (spec section 4.1).
H = 1/sqrt 2 [[1,1],[1,-1]]; X, Y, Z the standard Paulis;
RX t = [[cos(t/2), -i sin(t/2)], [-i sin(t/2), cos(t/2)]];
RY t = [[cos(t/2), -sin(t/2)], [sin(t/2), cos(t/2)]];
RZ t = [[exp(-i t/2), 0], [0, exp(i t/2)]]. -/
def applyGate : Gate → ℂ × ℂ → ℂ × ℂ
  | Gate.H, (a, b) =>
      ((a + b) / (Real.sqrt 2 : ℝ), (a - b) / (Real.sqrt 2 : ℝ))
  | Gate.X, (a, b) => (b, a)
  | Gate.Y, (a, b) => (-Complex.I * b, Complex.I * a)
  | Gate.Z, (a, b) => (a, -b)
  | Gate.RX t, (a, b) =>
      ((Real.cos (t / 2) : ℝ) * a - Complex.I * (Real.sin (t / 2) : ℝ) * b,
       -Complex.I * (Real.sin (t / 2) : ℝ) * a + (Real.cos (t / 2) : ℝ) * b)
  | Gate.RY t, (a, b) =>
      ((Real.cos (t / 2) : ℝ) * a - (Real.sin (t / 2) : ℝ) * b,
       (Real.sin (t / 2) : ℝ) * a + (Real.cos (t / 2) : ℝ) * b)
  | Gate.RZ t, (a, b) =>
      (Complex.exp ((-(t / 2) : ℝ) * Complex.I) * a,
       Complex.exp (((t / 2) : ℝ) * Complex.I) * b)

/-- The initial state (1, 0): the computational basis state prepared by
QuantumCircuit(q) at session start. -/
def qinit : ℂ × ℂ := (1, 0)

/-- Applying a list of gates in order, oldest first (each keypress appends
one gate to the circuit, and the simulator multiplies them out). -/
def applyGates (l : List Gate) (s : ℂ × ℂ) : ℂ × ℂ :=
  l.foldl (fun s g => applyGate g s) s

/-- The fixed catalog actually reachable from the keyboard: H, X, Y, Z
unconditionally, and the rotations only with angle pi/6 (lowercase keys)
or -pi/6 (uppercase keys); key_press lines 101-120. -/
def inCatalog : Gate → Prop
  | Gate.H => True
  | Gate.X => True
  | Gate.Y => True
  | Gate.Z => True
  | Gate.RX t => t = π / 6 ∨ t = -(π / 6)
  | Gate.RY t => t = π / 6 ∨ t = -(π / 6)
  | Gate.RZ t => t = π / 6 ∨ t = -(π / 6)

/-- States reachable from (1,0) by a finite sequence of catalog gates. -/
def ReachableCat (s : ℂ × ℂ) : Prop :=
  ∃ l : List Gate, (∀ g ∈ l, inCatalog g) ∧ applyGates l qinit = s

/-- Squared norm of the state vector, |a0|^2 + |a1|^2. -/
def norm2 (s : ℂ × ℂ) : ℝ :=
  Complex.abs s.1 ^ 2 + Complex.abs s.2 ^ 2

/-- Principal-branch complex arccosine,
arccos z = -i log (z + i (1 - z^2)^(1/2)), with the principal complex
logarithm and square root.  This is the function numpy.arccos computes on
a complex argument, as it receives on line 48: the simulator returns a
complex statevector, so sv[0] is a complex scalar. -/
def carccos (z : ℂ) : ℂ :=
  -Complex.I * Complex.log (z + Complex.I * (1 - z ^ 2) ^ (2⁻¹ : ℂ))

/-- Line 48: theta = np.real(2*np.arccos(sv[0])). -/
def theta (sv : ℂ × ℂ) : ℝ :=
  (2 * carccos sv.1).re

/-- Line 49: phi = np.real(np.angle(sv[1])); np.angle is the complex
argument. -/
def phiRaw (sv : ℂ × ℂ) : ℝ :=
  Complex.arg sv.2

/-- Lines 50-51: fold a negative angle into [0, 2 pi) by adding 2 pi. -/
def phiFold (sv : ℂ × ℂ) : ℝ :=
  if phiRaw sv < 0 then 2 * π + phiRaw sv else phiRaw sv

/-- The twelve pitch classes of the note table (lines 20-43). -/
inductive Note : Type
  | C : Note
  | Cs : Note
  | D : Note
  | Ds : Note
  | E : Note
  | F : Note
  | Fs : Note
  | G : Note
  | Gs : Note
  | A : Note
  | As : Note
  | B : Note

/-- Equal-tempered frequency table referenced to A4 = 440 Hz
(lines 20-43): f = 440 * 2^(k/12) with k from -9 (C) to 2 (B). -/
def freq : Note → ℝ
  | Note.C => 440 * (2 : ℝ) ^ ((-9 : ℝ) / 12)
  | Note.Cs => 440 * (2 : ℝ) ^ ((-8 : ℝ) / 12)
  | Note.D => 440 * (2 : ℝ) ^ ((-7 : ℝ) / 12)
  | Note.Ds => 440 * (2 : ℝ) ^ ((-6 : ℝ) / 12)
  | Note.E => 440 * (2 : ℝ) ^ ((-5 : ℝ) / 12)
  | Note.F => 440 * (2 : ℝ) ^ ((-4 : ℝ) / 12)
  | Note.Fs => 440 * (2 : ℝ) ^ ((-3 : ℝ) / 12)
  | Note.G => 440 * (2 : ℝ) ^ ((-2 : ℝ) / 12)
  | Note.Gs => 440 * (2 : ℝ) ^ ((-1 : ℝ) / 12)
  | Note.A => 440 * (2 : ℝ) ^ ((0 : ℝ) / 12)
  | Note.As => 440 * (2 : ℝ) ^ ((1 : ℝ) / 12)
  | Note.B => 440 * (2 : ℝ) ^ ((2 : ℝ) / 12)

/-- Line 55: np.linspace(start, stop, num, False), the endpoint-exclusive
time grid; sample i is start + (stop - start) * i / num. -/
def linspace (start stop : ℝ) (num : ℕ) : List ℝ :=
  (List.range num).map fun i : ℕ => start + (stop - start) * (i : ℝ) / (num : ℝ)

/-- Line 58: left channel sample, cos(theta/2) * sin(f*t*2*pi). -/
def leftSample (th f t : ℝ) : ℝ :=
  Real.cos (th / 2) * Real.sin (f * t * 2 * π)

/-- Line 59: right channel sample,
sin(theta/2) * sin(2^(phi/(2*pi))*f*t*2*pi + pi/2). -/
def rightSample (th ph f t : ℝ) : ℝ :=
  Real.sin (th / 2) *
    Real.sin ((2 : ℝ) ^ (ph / (2 * π)) * f * t * 2 * π + π / 2)

/-- One interleaved stereo sample pair at time t. -/
def samplePair (th ph f t : ℝ) : ℝ × ℝ :=
  (leftSample th f t, rightSample th ph f t)

/-- Lines 53-61: the synthesized (pre-normalization) stereo buffer, one
pair per point of the time grid; np.dstack interleaves the channels. -/
def mkNote (th ph f : ℝ) : List (ℝ × ℝ) :=
  (linspace 0 0.5 22050).map (samplePair th ph f)

/-- Maximum absolute sample value over both channels,
np.max(np.abs(note)) on line 64. -/
def peak (l : List (ℝ × ℝ)) : ℝ :=
  (l.map fun p => max |p.1| |p.2|).foldr max 0

/-- Line 64, the scaling: every sample is multiplied by
(2^15 - 1) / peak. -/
def normScale (l : List (ℝ × ℝ)) : List (ℝ × ℝ) :=
  l.map fun p =>
    (p.1 * (2 ^ 15 - 1) / peak l, p.2 * (2 ^ 15 - 1) / peak l)

/-- Line 64: audio = note * (2**15 - 1) / np.max(np.abs(note)).  The
division is unguarded in the source; when the peak is zero it is a
division of zero by zero, which floating point turns into NaN samples.
The embedding returns none in that case (the fault), and the scaled
buffer otherwise. -/
def normalizePeak (l : List (ℝ × ℝ)) : Option (List (ℝ × ℝ)) :=
  if peak l = 0 then none else some (normScale l)

/-- Truncation toward zero, the conversion a C-style float-to-int cast
performs for in-range values. -/
def truncToInt (x : ℝ) : ℤ :=
  if 0 ≤ x then ⌊x⌋ else ⌈x⌉

/-- Wrap-around of an integer into the signed 16-bit range, the effect of
astype(np.int16) on an out-of-range value. -/
def wrap16 (n : ℤ) : ℤ :=
  (n + 32768) % 65536 - 32768

/-- Line 65: audio.astype(np.int16), truncation toward zero followed by
the 16-bit wrap-around. -/
def toInt16 (x : ℝ) : ℤ :=
  wrap16 (truncToInt x)

/-- Quantization of the whole buffer to 16-bit integers. -/
def quantize16 (l : List (ℝ × ℝ)) : List (ℤ × ℤ) :=
  l.map fun p => (toInt16 p.1, toInt16 p.2)

/-- Lines 53-65: the pure core of the sonifier as a function of the
extracted angles and the frequency: synthesize, normalize, quantize. -/
def soundBuffer (th ph f : ℝ) : Option (List (ℤ × ℤ)) :=
  (normalizePeak (mkNote th ph f)).map quantize16

/-- Function sound, lines 18-65 (minus playback): read the state vector,
extract theta and phi, synthesize the buffer for the requested note. -/
def sound (sv : ℂ × ℂ) (n : Note) : Option (List (ℤ × ℤ)) :=
  soundBuffer (theta sv) (phiFold sv) (freq n)

end

noncomputable section

open Real

lemma sqrt_two_mul_self : Real.sqrt 2 * Real.sqrt 2 = 2 :=
  Real.mul_self_sqrt (by norm_num)

lemma sqrt_two_complex_mul_self :
    ((Real.sqrt 2 : ℝ) : ℂ) * ((Real.sqrt 2 : ℝ) : ℂ) = 2 := by
  exact_mod_cast congrArg (fun r : ℝ => (r : ℂ)) sqrt_two_mul_self

lemma sqrt_two_complex_sq : ((Real.sqrt 2 : ℝ) : ℂ) ^ 2 = 2 := by
  rw [sq]; exact sqrt_two_complex_mul_self

lemma sqrt_two_complex_ne_zero : ((Real.sqrt 2 : ℝ) : ℂ) ≠ 0 := by
  have : (0 : ℝ) < Real.sqrt 2 := Real.sqrt_pos.mpr (by norm_num)
  exact_mod_cast ne_of_gt this

lemma cos_sq_add_sin_sq_complex (x : ℝ) :
    ((Real.cos x : ℝ) : ℂ) ^ 2 + ((Real.sin x : ℝ) : ℂ) ^ 2 = 1 := by
  have h := Real.cos_sq_add_sin_sq x
  exact_mod_cast congrArg (fun r : ℝ => (r : ℂ)) h

/-- Every gate of the catalog preserves the squared norm of the state
vector exactly. -/
lemma normSq_applyGate (g : Gate) (s : ℂ × ℂ) :
    Complex.normSq (applyGate g s).1 + Complex.normSq (applyGate g s).2 =
      Complex.normSq s.1 + Complex.normSq s.2 := by
  obtain ⟨a, b⟩ := s
  cases g with
  | H =>
      simp only [applyGate, Complex.normSq_div, Complex.normSq_ofReal,
        sqrt_two_mul_self, Complex.normSq_add, Complex.normSq_sub]
      ring
  | X => simp [applyGate]; ring
  | Y =>
      simp only [applyGate, Complex.normSq_mul, Complex.normSq_neg,
        Complex.normSq_I]
      ring
  | Z => simp [applyGate]
  | RX t =>
      simp only [applyGate]
      simp only [Complex.normSq_apply, Complex.sub_re, Complex.sub_im,
        Complex.add_re, Complex.add_im, Complex.mul_re, Complex.mul_im,
        Complex.neg_re, Complex.neg_im, Complex.I_re, Complex.I_im,
        Complex.ofReal_re, Complex.ofReal_im]
      have h := Real.sin_sq_add_cos_sq (t / 2)
      nlinarith [h]
  | RY t =>
      simp only [applyGate]
      simp only [Complex.normSq_apply, Complex.sub_re, Complex.sub_im,
        Complex.add_re, Complex.add_im, Complex.mul_re, Complex.mul_im,
        Complex.ofReal_re, Complex.ofReal_im]
      have h := Real.sin_sq_add_cos_sq (t / 2)
      nlinarith [h]
  | RZ t =>
      simp only [applyGate, Complex.normSq_mul]
      have h1 : Complex.normSq (Complex.exp ((-(t / 2) : ℝ) * Complex.I)) = 1 := by
        rw [Complex.normSq_eq_abs, Complex.abs_exp_ofReal_mul_I]; norm_num
      have h2 : Complex.normSq (Complex.exp (((t / 2) : ℝ) * Complex.I)) = 1 := by
        rw [Complex.normSq_eq_abs, Complex.abs_exp_ofReal_mul_I]; norm_num
      rw [h1, h2]; ring

lemma applyGates_nil (s : ℂ × ℂ) : applyGates [] s = s := rfl

lemma applyGates_cons (g : Gate) (l : List Gate) (s : ℂ × ℂ) :
    applyGates (g :: l) s = applyGates l (applyGate g s) := rfl

lemma normSq_applyGates (l : List Gate) (s : ℂ × ℂ) :
    Complex.normSq (applyGates l s).1 + Complex.normSq (applyGates l s).2 =
      Complex.normSq s.1 + Complex.normSq s.2 := by
  induction l generalizing s with
  | nil => rfl
  | cons g l ih =>
      rw [applyGates_cons, ih, normSq_applyGate]

lemma norm2_eq_normSq (s : ℂ × ℂ) :
    norm2 s = Complex.normSq s.1 + Complex.normSq s.2 := by
  simp [norm2, Complex.sq_abs]

/-- C3: for every finite sequence of gate applications (in particular any
sequence drawn from the catalog H, X, Y, Z, RX/RY/RZ of plus or minus
pi/6) starting from (1, 0), the resulting state satisfies
|a0|^2 + |a1|^2 = 1 exactly: unit norm is an invariant of every gate
application, for every rotation angle. -/
theorem claim3_norm_invariant (l : List Gate) :
    norm2 (applyGates l qinit) = 1 := by
  rw [norm2_eq_normSq, normSq_applyGates]
  simp [qinit]

/-- C8: the Hadamard gate is an involution: applying it twice returns any
state exactly. -/
theorem claim8_hadamard_involution (s : ℂ × ℂ) :
    applyGate Gate.H (applyGate Gate.H s) = s := by
  obtain ⟨a, b⟩ := s
  simp only [applyGate, Prod.mk.injEq]
  constructor
  · field_simp
    linear_combination (-a) * sqrt_two_complex_sq
  · field_simp
    linear_combination (-b) * sqrt_two_complex_sq

/-- C7: each fixed-angle rotation followed by its opposite-angle rotation
returns any state exactly: RX(pi/6) then RX(-pi/6) is the identity, and
the same for RY and RZ. -/
theorem claim7_rotation_inverse (s : ℂ × ℂ) :
    applyGate (Gate.RX (-(π / 6))) (applyGate (Gate.RX (π / 6)) s) = s ∧
    applyGate (Gate.RY (-(π / 6))) (applyGate (Gate.RY (π / 6)) s) = s ∧
    applyGate (Gate.RZ (-(π / 6))) (applyGate (Gate.RZ (π / 6)) s) = s := by
  obtain ⟨a, b⟩ := s
  have hcs := cos_sq_add_sin_sq_complex (π / 6 / 2)
  refine ⟨?_, ?_, ?_⟩
  · simp only [applyGate, neg_div, Real.cos_neg, Real.sin_neg,
      Complex.ofReal_neg, Prod.mk.injEq]
    constructor
    · linear_combination a * hcs -
        ((Real.sin (π / 6 / 2) : ℝ) : ℂ) ^ 2 * a * Complex.I_sq
    · linear_combination b * hcs -
        ((Real.sin (π / 6 / 2) : ℝ) : ℂ) ^ 2 * b * Complex.I_sq
  · simp only [applyGate, neg_div, Real.cos_neg, Real.sin_neg,
      Complex.ofReal_neg, Prod.mk.injEq]
    constructor
    · linear_combination a * hcs
    · linear_combination b * hcs
  · simp only [applyGate, neg_div, Prod.mk.injEq]
    constructor
    · rw [← mul_assoc, ← Complex.exp_add]
      push_cast
      ring_nf
      rw [Complex.exp_zero, one_mul]
    · rw [← mul_assoc, ← Complex.exp_add]
      push_cast
      ring_nf
      rw [Complex.exp_zero, one_mul]

end

noncomputable section

open Real

/-- The real part the code takes on line 48 is twice the argument of
z + i (1 - z^2)^(1/2): the logarithm contributes its imaginary part. -/
lemma theta_eq_two_arg (sv : ℂ × ℂ) :
    theta sv =
      2 * Complex.arg (sv.1 + Complex.I * (1 - sv.1 ^ 2) ^ (2⁻¹ : ℂ)) := by
  unfold theta carccos
  simp only [Complex.mul_re, Complex.neg_re, Complex.neg_im, Complex.I_re,
    Complex.I_im, Complex.log_re, Complex.log_im]
  norm_num

/-- Principal complex square root of a nonnegative real is the real
square root. -/
lemma csqrt_ofReal_nonneg {u : ℝ} (hu : 0 ≤ u) :
    ((u : ℝ) : ℂ) ^ (2⁻¹ : ℂ) = ((Real.sqrt u : ℝ) : ℂ) := by
  apply Complex.ext
  · rw [Complex.cpow_inv_two_re]
    have h1 : (Complex.abs ((u : ℝ) : ℂ) + ((u : ℝ) : ℂ).re) / 2 = u := by
      rw [Complex.abs_ofReal, abs_of_nonneg hu, Complex.ofReal_re]
      ring
    rw [h1, Complex.ofReal_re]
  · rw [Complex.cpow_inv_two_im_eq_sqrt (by simp : 0 ≤ (((u : ℝ) : ℂ)).im)]
    have h1 : (Complex.abs ((u : ℝ) : ℂ) - ((u : ℝ) : ℂ).re) / 2 = 0 := by
      rw [Complex.abs_ofReal, abs_of_nonneg hu, Complex.ofReal_re]
      ring
    rw [h1, Real.sqrt_zero, Complex.ofReal_im]

/-- On a real first amplitude of modulus at most one, line 48 computes
exactly twice the real arccosine. -/
lemma theta_ofReal (x : ℝ) (a1 : ℂ) (h : |x| ≤ 1) :
    theta ((x : ℂ), a1) = 2 * Real.arccos x := by
  have hx1 : -1 ≤ x := (abs_le.mp h).1
  have hx2 : x ≤ 1 := (abs_le.mp h).2
  have hx2' : 0 ≤ 1 - x ^ 2 := by nlinarith
  rw [theta_eq_two_arg]
  have hu : (1 : ℂ) - ((x : ℝ) : ℂ) ^ 2 = (((1 - x ^ 2 : ℝ)) : ℂ) := by
    push_cast; ring
  rw [hu, csqrt_ofReal_nonneg hx2']
  have hw : ((x : ℝ) : ℂ) + Complex.I * ((Real.sqrt (1 - x ^ 2) : ℝ) : ℂ) =
      (Real.cos (Real.arccos x) : ℝ) +
        (Real.sin (Real.arccos x) : ℝ) * Complex.I := by
    rw [Real.cos_arccos hx1 hx2, Real.sin_arccos]
    ring
  rw [hw, Complex.ofReal_cos, Complex.ofReal_sin,
    Complex.arg_cos_add_sin_mul_I
      ⟨lt_of_lt_of_le (neg_neg_of_pos Real.pi_pos) (Real.arccos_nonneg x),
        Real.arccos_le_pi x⟩]

/-- C1 (amended): the polar angle the sonifier derives is
Re(2 arccos(a0)) with the complex principal arccosine; whenever the first
amplitude is real with modulus at most one, this agrees with the
reference formula 2 arccos(Re(a0)). -/
theorem claim1_theta_real_amplitude (x : ℝ) (a1 : ℂ) (h : |x| ≤ 1) :
    theta ((x : ℂ), a1) = 2 * Real.arccos x :=
  theta_ofReal x a1 h

/-- Witness for C1 (amended) at the initial state (1, 0). -/
theorem claim1_theta_real_amplitude_witness :
    |(1 : ℝ)| ≤ 1 ∧ theta ((1 : ℂ), (0 : ℂ)) = 2 * Real.arccos 1 := by
  constructor
  · norm_num
  · exact_mod_cast claim1_theta_real_amplitude 1 0 (by norm_num)

end

noncomputable section

open Real

/-- Key irrationality fact behind the C1 counterexample: the two half-angle
square roots of the principal root of 1 + i cannot sum to sqrt 2. -/
lemma half_angle_roots_sum_ne (A B : ℝ)
    (hA2 : A ^ 2 = (Real.sqrt 2 + 1) / 2)
    (hB2 : B ^ 2 = (Real.sqrt 2 - 1) / 2) :
    A + B ≠ Real.sqrt 2 := by
  intro hsum
  have h2 : Real.sqrt 2 ^ 2 = 2 := Real.sq_sqrt (by norm_num)
  have hexpand : A ^ 2 + 2 * (A * B) + B ^ 2 = 2 := by
    linear_combination (A + B + Real.sqrt 2) * hsum + h2
  have hab : A * B = (2 - Real.sqrt 2) / 2 := by
    rw [hA2, hB2] at hexpand; linarith
  have habsq : (A * B) ^ 2 = 1 / 4 := by
    rw [mul_pow, hA2, hB2]
    linear_combination (1 / 4) * h2
  rw [hab] at habsq
  have h54 : Real.sqrt 2 = 5 / 4 := by nlinarith [habsq, h2]
  rw [h54] at h2
  norm_num at h2

/-- C1 (counterexample): after three RZ(pi/6) gates the first amplitude is
exp(-i pi/4) = sqrt 2 / 2 - i sqrt 2 / 2, whose imaginary part is nonzero,
and the theta computed on line 48 differs from 2 arccos(Re(a0)): the code
takes the real part of the complex arccosine of a0, not the real
arccosine of the real part of a0. -/
theorem claim1_counterexample :
    applyGates [Gate.RZ (π / 6), Gate.RZ (π / 6), Gate.RZ (π / 6)] qinit =
      (((Real.sqrt 2 / 2 : ℝ) : ℂ) - ((Real.sqrt 2 / 2 : ℝ) : ℂ) * Complex.I,
        0) ∧
    (((Real.sqrt 2 / 2 : ℝ) : ℂ) - ((Real.sqrt 2 / 2 : ℝ) : ℂ) * Complex.I).im
      ≠ 0 ∧
    theta
        (((Real.sqrt 2 / 2 : ℝ) : ℂ) - ((Real.sqrt 2 / 2 : ℝ) : ℂ) * Complex.I,
          0) ≠
      2 * Real.arccos
        ((((Real.sqrt 2 / 2 : ℝ) : ℂ) -
            ((Real.sqrt 2 / 2 : ℝ) : ℂ) * Complex.I).re) := by
  set z₀ : ℂ :=
    ((Real.sqrt 2 / 2 : ℝ) : ℂ) - ((Real.sqrt 2 / 2 : ℝ) : ℂ) * Complex.I
    with hz₀
  have hsqrt2 : (0 : ℝ) < Real.sqrt 2 := Real.sqrt_pos.mpr (by norm_num)
  have hzre : z₀.re = Real.sqrt 2 / 2 := by simp [hz₀]
  have hzim : z₀.im = -(Real.sqrt 2 / 2) := by simp [hz₀]
  have hexp3 :
      Complex.exp (((-(π / 6 / 2)) : ℝ) * Complex.I) *
          (Complex.exp (((-(π / 6 / 2)) : ℝ) * Complex.I) *
            Complex.exp (((-(π / 6 / 2)) : ℝ) * Complex.I)) = z₀ := by
    rw [← Complex.exp_add, ← Complex.exp_add]
    have harg : (((-(π / 6 / 2)) : ℝ) : ℂ) * Complex.I +
        ((((-(π / 6 / 2)) : ℝ) : ℂ) * Complex.I +
          (((-(π / 6 / 2)) : ℝ) : ℂ) * Complex.I) =
        ((-(π / 4) : ℝ) : ℂ) * Complex.I := by
      push_cast; ring
    rw [harg, Complex.exp_mul_I, ← Complex.ofReal_cos, ← Complex.ofReal_sin,
      Real.cos_neg, Real.sin_neg, Real.cos_pi_div_four, Real.sin_pi_div_four,
      hz₀]
    push_cast
    ring
  have hsqA : (Real.sqrt 2 / 2) ^ 2 = 1 / 2 := by
    rw [div_pow, Real.sq_sqrt (by norm_num : (0 : ℝ) ≤ 2)]; norm_num
  have hA : ((Real.sqrt 2 / 2 : ℝ) : ℂ) ^ 2 = 1 / 2 := by
    rw [← Complex.ofReal_pow, hsqA]; norm_num
  have hz2 : z₀ ^ 2 = -Complex.I := by
    rw [hz₀]
    linear_combination (1 - 2 * Complex.I + Complex.I ^ 2) * hA +
      (1 / 2) * Complex.I_sq
  have h1z : (1 : ℂ) - z₀ ^ 2 = 1 + Complex.I := by rw [hz2]; ring
  have hnormSq : Complex.normSq (1 + Complex.I) = 2 := by
    simp [Complex.normSq_apply]
    norm_num
  have habs : Complex.abs (1 + Complex.I) = Real.sqrt 2 := by
    rw [Complex.abs_apply, hnormSq]
  have hsre : ((1 + Complex.I) ^ (2⁻¹ : ℂ)).re =
      Real.sqrt ((Real.sqrt 2 + 1) / 2) := by
    rw [Complex.cpow_inv_two_re, habs]
    norm_num
  have hsim : ((1 + Complex.I) ^ (2⁻¹ : ℂ)).im =
      Real.sqrt ((Real.sqrt 2 - 1) / 2) := by
    rw [Complex.cpow_inv_two_im_eq_sqrt (by simp : 0 ≤ (1 + Complex.I).im),
      habs]
    norm_num
  set w₀ : ℂ := z₀ + Complex.I * (1 + Complex.I) ^ (2⁻¹ : ℂ) with hw₀
  have hwre : w₀.re = Real.sqrt 2 / 2 - Real.sqrt ((Real.sqrt 2 - 1) / 2) := by
    rw [hw₀, Complex.add_re, Complex.mul_re, Complex.I_re, Complex.I_im,
      hsre, hsim, hzre]
    ring
  have hwim : w₀.im =
      -(Real.sqrt 2 / 2) + Real.sqrt ((Real.sqrt 2 + 1) / 2) := by
    rw [hw₀, Complex.add_im, Complex.mul_im, Complex.I_re, Complex.I_im,
      hsre, hsim, hzim]
    ring
  have hne : w₀.im ≠ w₀.re := by
    rw [hwim, hwre]
    intro hc
    refine half_angle_roots_sum_ne (Real.sqrt ((Real.sqrt 2 + 1) / 2))
      (Real.sqrt ((Real.sqrt 2 - 1) / 2)) (Real.sq_sqrt (by nlinarith))
      (Real.sq_sqrt ?_) ?_
    · have hone_le : (1 : ℝ) ≤ Real.sqrt 2 := by
        nlinarith [Real.sq_sqrt (by norm_num : (0 : ℝ) ≤ 2), hsqrt2]
      linarith
    · linarith
  have hargne : Complex.arg w₀ ≠ π / 4 := by
    intro harg
    have hw0 : w₀ ≠ 0 := by
      intro h0
      exact hne (by rw [h0]; simp)
    have habs0 : Complex.abs w₀ ≠ 0 := by
      intro hab0
      exact hw0 (Complex.abs.eq_zero.mp hab0)
    have hs := Complex.sin_arg w₀
    have hc := Complex.cos_arg hw0
    rw [harg, Real.sin_pi_div_four] at hs
    rw [harg, Real.cos_pi_div_four] at hc
    have h1 : w₀.im = Real.sqrt 2 / 2 * Complex.abs w₀ :=
      (div_eq_iff habs0).mp hs.symm
    have h2 : w₀.re = Real.sqrt 2 / 2 * Complex.abs w₀ :=
      (div_eq_iff habs0).mp hc.symm
    exact hne (by rw [h1, h2])
  have harccos : Real.arccos (Real.sqrt 2 / 2) = π / 4 := by
    rw [← Real.cos_pi_div_four]
    exact Real.arccos_cos (by positivity) (by linarith [Real.pi_pos])
  refine ⟨?_, ?_, ?_⟩
  · show applyGates _ qinit = (z₀, 0)
    simp only [applyGates, List.foldl, applyGate, qinit, mul_one, mul_zero]
    exact Prod.ext hexp3 rfl
  · rw [hzim]
    intro hc
    nlinarith [hsqrt2, neg_eq_zero.mp hc]
  · rw [theta_eq_two_arg, hzre, harccos]
    simp only [h1z]
    rw [← hw₀]
    intro hc
    exact hargne (by linarith)

end

noncomputable section

open Real

/-- The imaginary part of z + i (1 - z^2)^(1/2) is nonnegative whenever
|z| is at most 1: the principal square root has nonnegative real part
large enough to compensate a negative Im z. -/
lemma arg_arg_im_nonneg {z : ℂ} (h : Complex.abs z ≤ 1) :
    0 ≤ (z + Complex.I * (1 - z ^ 2) ^ (2⁻¹ : ℂ)).im := by
  have him : (z + Complex.I * (1 - z ^ 2) ^ (2⁻¹ : ℂ)).im =
      z.im + ((1 - z ^ 2) ^ (2⁻¹ : ℂ)).re := by
    rw [Complex.add_im, Complex.mul_im, Complex.I_re, Complex.I_im]
    ring
  rw [him, Complex.cpow_inv_two_re]
  have hsnn : 0 ≤ Real.sqrt ((Complex.abs (1 - z ^ 2) + (1 - z ^ 2).re) / 2) :=
    Real.sqrt_nonneg _
  rcases le_or_lt 0 z.im with hzim | hzim
  · linarith
  · have hure : (1 - z ^ 2).re = 1 - (z.re ^ 2 - z.im ^ 2) := by
      simp [Complex.sub_re, pow_two, Complex.mul_re]
    have habsnn : 0 ≤ Complex.abs (1 - z ^ 2) := Complex.abs.nonneg _
    have hz1 : z.re ^ 2 + z.im ^ 2 ≤ 1 := by
      have hsq := Complex.sq_abs z
      have := Complex.normSq_apply z
      nlinarith [Complex.abs.nonneg z, h]
    have hstep : -z.im ≤
        Real.sqrt ((Complex.abs (1 - z ^ 2) + (1 - z ^ 2).re) / 2) := by
      rw [Real.le_sqrt (by linarith) ?hy]
      case hy =>
        have := Complex.abs_re_le_abs (1 - z ^ 2)
        have := neg_abs_le ((1 - z ^ 2).re)
        linarith [abs_le.mp (le_refl |(1 - z ^ 2).re|)]
      rw [hure]
      nlinarith
    linarith

/-- C4 (amended): for every state reachable from (1, 0) by the catalog
gates, the polar angle of line 48 lies in the closed interval [0, 2 pi]
(and it genuinely exceeds pi on reachable states, see the
counterexample). -/
theorem claim4_theta_range (s : ℂ × ℂ) (h : ReachableCat s) :
    0 ≤ theta s ∧ theta s ≤ 2 * π := by
  obtain ⟨l, -, hls⟩ := h
  have hnorm : Complex.normSq s.1 + Complex.normSq s.2 = 1 := by
    rw [← hls, normSq_applyGates]
    simp [qinit]
  have habs1 : Complex.abs s.1 ≤ 1 := by
    have h1 := Complex.sq_abs s.1
    have h2 := Complex.normSq_nonneg s.2
    nlinarith [Complex.abs.nonneg s.1]
  rw [theta_eq_two_arg]
  constructor
  · have := Complex.arg_nonneg_iff.mpr (arg_arg_im_nonneg habs1)
    linarith
  · have := Complex.arg_le_pi (s.1 + Complex.I * (1 - s.1 ^ 2) ^ (2⁻¹ : ℂ))
    linarith

/-- Witness for C4 (amended) at the initial state. -/
theorem claim4_theta_range_witness :
    ReachableCat qinit ∧ 0 ≤ theta qinit ∧ theta qinit ≤ 2 * π := by
  have hr : ReachableCat qinit := ⟨[], by simp, rfl⟩
  exact ⟨hr, claim4_theta_range qinit hr⟩

/-- C4 (counterexample): the state (-1, 0) is reachable by pressing the
keys for X, Z, X, and on it line 48 computes theta = 2 pi, which lies
outside [0, pi]. -/
theorem claim4_counterexample :
    ReachableCat ((-1 : ℂ), 0) ∧ theta ((-1 : ℂ), 0) = 2 * π ∧ π < 2 * π := by
  refine ⟨⟨[Gate.X, Gate.Z, Gate.X], ?_, ?_⟩, ?_, ?_⟩
  · intro g hg
    simp only [List.mem_cons, List.not_mem_nil, or_false] at hg
    rcases hg with rfl | rfl | rfl <;> trivial
  · simp [applyGates, applyGate, qinit]
  · rw [theta_eq_two_arg]
    have h0 : (1 : ℂ) - (-1 : ℂ) ^ 2 = 0 := by norm_num
    simp only [h0]
    rw [Complex.zero_cpow (by norm_num : (2⁻¹ : ℂ) ≠ 0)]
    simp [Complex.arg_neg_one]
  · linarith [Real.pi_pos]

end

noncomputable section

open Real

lemma linspace_length (a b : ℝ) (n : ℕ) : (linspace a b n).length = n := by
  unfold linspace
  rw [List.length_map, List.length_range]

lemma linspace_getElem? (a b : ℝ) (n i : ℕ) (h : i < n) :
    (linspace a b n)[i]? = some (a + (b - a) * i / n) := by
  unfold linspace
  rw [List.getElem?_map, List.getElem?_range h]
  rfl

lemma timeGrid_value (i : ℕ) :
    (0 : ℝ) + (0.5 - 0) * (i : ℝ) / 22050 = (i : ℝ) / 44100 := by
  rw [show (0.5 : ℝ) = 1 / 2 by norm_num]
  ring

lemma le_peak {l : List (ℝ × ℝ)} {p : ℝ × ℝ} (hp : p ∈ l) :
    max |p.1| |p.2| ≤ peak l := by
  induction l with
  | nil => cases hp
  | cons q l ih =>
      have hcons : peak (q :: l) = max (max |q.1| |q.2|) (peak l) := rfl
      rcases List.mem_cons.mp hp with rfl | hp'
      · rw [hcons]; exact le_max_left _ _
      · rw [hcons]; exact le_trans (ih hp') (le_max_right _ _)

lemma peak_nonneg (l : List (ℝ × ℝ)) : 0 ≤ peak l := by
  induction l with
  | nil => simp [peak]
  | cons q l ih =>
      have hcons : peak (q :: l) = max (max |q.1| |q.2|) (peak l) := rfl
      rw [hcons]
      exact le_trans ih (le_max_right _ _)

lemma samplePair_mem (th ph f t : ℝ) (ht : t ∈ linspace 0 0.5 22050) :
    samplePair th ph f t ∈ mkNote th ph f := by
  unfold mkNote
  exact List.mem_map_of_mem _ ht

lemma timeGrid_mem (i : ℕ) (h : i < 22050) :
    (0 : ℝ) + (0.5 - 0) * (i : ℝ) / 22050 ∈ linspace 0 0.5 22050 := by
  unfold linspace
  exact List.mem_map.mpr ⟨i, List.mem_range.mpr h, rfl⟩

lemma pow_note_lt (k : ℝ) (hk : k ≤ 1) : 440 * (2 : ℝ) ^ k < 22050 := by
  have h := Real.rpow_le_rpow_of_exponent_le (by norm_num : (1 : ℝ) ≤ 2) hk
  rw [Real.rpow_one] at h
  nlinarith

lemma freq_pos (n : Note) : 0 < freq n := by
  cases n <;> · simp only [freq]; positivity

lemma freq_lt (n : Note) : freq n < 22050 := by
  cases n <;> exact pow_note_lt _ (by norm_num)

/-- On every admissible frequency the synthesized buffer is never silent:
when sin(theta/2) is nonzero the very first right-channel sample equals it
(the quarter-cycle offset makes the sine one at t = 0); otherwise
cos(theta/2) has modulus one and the second left-channel sample is a
nonzero sine of an angle strictly between 0 and pi. -/
lemma peak_mkNote_pos (th ph f : ℝ) (hf0 : 0 < f) (hf1 : f < 22050) :
    0 < peak (mkNote th ph f) := by
  by_cases hs : Real.sin (th / 2) = 0
  · have hc : Real.cos (th / 2) ≠ 0 := by
      intro hc0
      have h1 := Real.sin_sq_add_cos_sq (th / 2)
      rw [hs, hc0] at h1
      norm_num at h1
    have hle := le_trans (le_max_left _ _)
      (le_peak (samplePair_mem th ph f _ (timeGrid_mem 1 (by norm_num))))
    simp only [samplePair, leftSample] at hle
    rw [timeGrid_value 1] at hle
    have hsin : 0 < Real.sin (f * ((1 : ℕ) / 44100) * 2 * π) := by
      apply Real.sin_pos_of_pos_of_lt_pi
      · push_cast
        exact mul_pos (mul_pos (mul_pos hf0 (by norm_num)) (by norm_num))
          Real.pi_pos
      · push_cast
        have hπ := Real.pi_pos
        nlinarith
    have habsl :
        0 < |Real.cos (th / 2) * Real.sin (f * ((1 : ℕ) / 44100) * 2 * π)| := by
      rw [abs_mul]
      exact mul_pos (abs_pos.mpr hc) (abs_pos.mpr (ne_of_gt hsin))
    exact lt_of_lt_of_le habsl hle
  · have hle := le_trans (le_max_right _ _)
      (le_peak (samplePair_mem th ph f _ (timeGrid_mem 0 (by norm_num))))
    simp only [samplePair, rightSample] at hle
    have harg : (2 : ℝ) ^ (ph / (2 * π)) * f *
        ((0 : ℝ) + (0.5 - 0) * ((0 : ℕ) : ℝ) / 22050) * 2 * π + π / 2 =
        π / 2 := by
      norm_num
    rw [harg, Real.sin_pi_div_two, mul_one] at hle
    exact lt_of_lt_of_le (abs_pos.mpr hs) hle

/-- The sonifier never takes the division fault: the peak is nonzero for
every state and note, so normalization always produces a buffer. -/
lemma sound_eq_some (sv : ℂ × ℂ) (n : Note) :
    sound sv n =
      some (quantize16
        (normScale (mkNote (theta sv) (phiFold sv) (freq n)))) := by
  unfold sound soundBuffer normalizePeak
  rw [if_neg (ne_of_gt (peak_mkNote_pos _ _ _ (freq_pos n) (freq_lt n)))]
  rfl

end

noncomputable section

open Real

/-- C5: the i-th synthesized sample pair is exactly
(cos(theta/2) sin(2 pi f t_i), sin(theta/2) sin(2 pi f t_i 2^(phi/2pi) + pi/2))
with t_i = i / 44100, for every theta, phi, frequency and index below
22050. -/
theorem claim5_sample_formulas (th ph f : ℝ) (i : ℕ) (h : i < 22050) :
    (mkNote th ph f)[i]? =
      some (Real.cos (th / 2) * Real.sin (2 * π * f * ((i : ℝ) / 44100)),
        Real.sin (th / 2) *
          Real.sin (2 * π * f * ((i : ℝ) / 44100) * (2 : ℝ) ^ (ph / (2 * π))
            + π / 2)) := by
  unfold mkNote
  rw [List.getElem?_map, linspace_getElem? 0 0.5 22050 i h]
  simp only [Option.map_some']
  congr 1
  unfold samplePair leftSample rightSample
  rw [show (0.5 : ℝ) = 1 / 2 by norm_num]
  refine Prod.ext ?_ ?_ <;>
    · simp only
      push_cast
      ring_nf

/-- Witness for C5 at theta = 0, phi = 0, f = 440, i = 0. -/
theorem claim5_sample_formulas_witness :
    (0 : ℕ) < 22050 ∧
    (mkNote 0 0 440)[(0 : ℕ)]? =
      some (Real.cos (0 / 2) *
          Real.sin (2 * π * 440 * (((0 : ℕ) : ℝ) / 44100)),
        Real.sin (0 / 2) *
          Real.sin (2 * π * 440 * (((0 : ℕ) : ℝ) / 44100) *
              (2 : ℝ) ^ ((0 : ℝ) / (2 * π)) + π / 2)) :=
  ⟨by norm_num, claim5_sample_formulas 0 0 440 0 (by norm_num)⟩

/-- C6: every produced audio buffer holds exactly
floor(0.5 * 44100) = 22050 stereo sample pairs, and the i-th point of the
time grid is i / 44100. -/
theorem claim6_buffer_length (sv : ℂ × ℂ) (n : Note) (buf : List (ℤ × ℤ))
    (h : sound sv n = some buf) :
    buf.length = 22050 ∧
      ∀ i : ℕ, i < 22050 →
        (linspace 0 0.5 22050)[i]? = some ((i : ℝ) / 44100) := by
  constructor
  · rw [sound_eq_some] at h
    have hbuf : buf =
        quantize16 (normScale (mkNote (theta sv) (phiFold sv) (freq n))) :=
      (Option.some_injective _ h.symm)
    rw [hbuf]
    unfold quantize16 normScale mkNote
    rw [List.length_map, List.length_map, List.length_map, linspace_length]
  · intro i hi
    rw [linspace_getElem? 0 0.5 22050 i hi]
    congr 1
    push_cast
    rw [show (0.5 : ℝ) = 1 / 2 by norm_num]
    ring

/-- Witness for C6 at the initial state and note A. -/
theorem claim6_buffer_length_witness :
    ((sound qinit Note.A).getD []).length = 22050 ∧
      (linspace 0 0.5 22050)[(0 : ℕ)]? = some (((0 : ℕ) : ℝ) / 44100) := by
  have hsome := sound_eq_some qinit Note.A
  have h := claim6_buffer_length qinit Note.A _ hsome
  constructor
  · rw [hsome, Option.getD_some]
    exact (claim6_buffer_length qinit Note.A _ hsome).1
  · exact h.2 0 (by norm_num)

lemma peak_replicate_zero (n : ℕ) :
    peak (List.replicate n ((0 : ℝ), (0 : ℝ))) = 0 := by
  induction n with
  | zero => rfl
  | succ n ih =>
      rw [List.replicate_succ]
      show max (max |(0 : ℝ)| |(0 : ℝ)|)
        (peak (List.replicate n ((0 : ℝ), (0 : ℝ)))) = 0
      rw [ih]
      norm_num

/-- C2 (code behavior): on an entirely silent buffer the normalization of
line 64 does not short-circuit; it performs the division by the zero
peak, i.e. it faults (none in the embedding) instead of returning the
all-zero buffer the spec requires. -/
theorem claim2_silent_buffer_faults :
    normalizePeak (List.replicate 22050 ((0 : ℝ), (0 : ℝ))) = none := by
  unfold normalizePeak
  rw [if_pos (peak_replicate_zero 22050)]

/-- C9: for every normalized state and every note of the table, the
pre-normalization buffer has a strictly positive peak, so the unguarded
division on line 64 never divides by zero for inputs produced through
the public interface. -/
theorem claim9_peak_positive (sv : ℂ × ℂ) (n : Note) (_hnorm : norm2 sv = 1) :
    0 < peak (mkNote (theta sv) (phiFold sv) (freq n)) ∧
      sound sv n ≠ none := by
  refine ⟨peak_mkNote_pos _ _ _ (freq_pos n) (freq_lt n), ?_⟩
  rw [sound_eq_some]
  simp

/-- Witness for C9 at the initial state and note C. -/
theorem claim9_peak_positive_witness :
    norm2 qinit = 1 ∧
      (0 < peak (mkNote (theta qinit) (phiFold qinit) (freq Note.C)) ∧
        sound qinit Note.C ≠ none) := by
  have h : norm2 qinit = 1 := by
    simp [norm2, qinit]
  exact ⟨h, claim9_peak_positive qinit Note.C h⟩

lemma toInt16_bounds {x : ℝ} (h : |x| ≤ 32767) :
    -32767 ≤ toInt16 x ∧ toInt16 x ≤ 32767 := by
  obtain ⟨h1, h2⟩ := abs_le.mp h
  have htr : -32767 ≤ truncToInt x ∧ truncToInt x ≤ 32767 := by
    unfold truncToInt
    split
    · constructor
      · exact Int.le_floor.mpr (by exact_mod_cast h1)
      · exact_mod_cast le_trans (Int.floor_le x) h2
    · constructor
      · exact_mod_cast le_trans h1 (Int.le_ceil x)
      · exact Int.ceil_le.mpr (by exact_mod_cast h2)
  obtain ⟨ha, hb⟩ := htr
  unfold toInt16 wrap16
  have hmod : (truncToInt x + 32768) % 65536 = truncToInt x + 32768 :=
    Int.emod_eq_of_lt (by linarith) (by linarith)
  rw [hmod]
  constructor <;> linarith

end

noncomputable section

open Real

/-- C10: whenever the pre-normalization buffer has a nonzero peak, every
quantized output sample lies within [-32767, 32767]: the scaling bounds
each magnitude by 2^15 - 1 and truncation toward zero cannot leave the
range, so the 16-bit conversion never wraps. -/
theorem claim10_quantized_in_range (th ph f : ℝ)
    (hp : peak (mkNote th ph f) ≠ 0) (q : ℤ × ℤ)
    (hq : q ∈ quantize16 (normScale (mkNote th ph f))) :
    -32767 ≤ q.1 ∧ q.1 ≤ 32767 ∧ -32767 ≤ q.2 ∧ q.2 ≤ 32767 := by
  have hpos : 0 < peak (mkNote th ph f) :=
    lt_of_le_of_ne (peak_nonneg _) (Ne.symm hp)
  unfold quantize16 at hq
  obtain ⟨r, hr, rfl⟩ := List.mem_map.mp hq
  unfold normScale at hr
  obtain ⟨p, hpmem, rfl⟩ := List.mem_map.mp hr
  dsimp only
  have hb1 : |p.1| ≤ peak (mkNote th ph f) :=
    le_trans (le_max_left _ _) (le_peak hpmem)
  have hb2 : |p.2| ≤ peak (mkNote th ph f) :=
    le_trans (le_max_right _ _) (le_peak hpmem)
  have habs : |(2 ^ 15 - 1 : ℝ)| = 32767 := by norm_num
  have hs1 : |p.1 * (2 ^ 15 - 1) / peak (mkNote th ph f)| ≤ 32767 := by
    rw [abs_div, abs_mul, abs_of_pos hpos, habs, div_le_iff₀ hpos]
    nlinarith [abs_nonneg p.1]
  have hs2 : |p.2 * (2 ^ 15 - 1) / peak (mkNote th ph f)| ≤ 32767 := by
    rw [abs_div, abs_mul, abs_of_pos hpos, habs, div_le_iff₀ hpos]
    nlinarith [abs_nonneg p.2]
  have t1 := toInt16_bounds hs1
  have t2 := toInt16_bounds hs2
  exact ⟨t1.1, t1.2, t2.1, t2.2⟩

/-- Witness for C10: the quantized image of the first sample of the
buffer for theta = pi, phi = 0, f = 440. -/
theorem claim10_quantized_in_range_witness :
    peak (mkNote π 0 440) ≠ 0 ∧
      (-32767 ≤ (toInt16 ((samplePair π 0 440
            ((0 : ℝ) + (0.5 - 0) * ((0 : ℕ) : ℝ) / 22050)).1 *
            (2 ^ 15 - 1) / peak (mkNote π 0 440)),
          toInt16 ((samplePair π 0 440
            ((0 : ℝ) + (0.5 - 0) * ((0 : ℕ) : ℝ) / 22050)).2 *
            (2 ^ 15 - 1) / peak (mkNote π 0 440))).1 ∧
        (toInt16 ((samplePair π 0 440
            ((0 : ℝ) + (0.5 - 0) * ((0 : ℕ) : ℝ) / 22050)).1 *
            (2 ^ 15 - 1) / peak (mkNote π 0 440)),
          toInt16 ((samplePair π 0 440
            ((0 : ℝ) + (0.5 - 0) * ((0 : ℕ) : ℝ) / 22050)).2 *
            (2 ^ 15 - 1) / peak (mkNote π 0 440))).1 ≤ 32767 ∧
        -32767 ≤ (toInt16 ((samplePair π 0 440
            ((0 : ℝ) + (0.5 - 0) * ((0 : ℕ) : ℝ) / 22050)).1 *
            (2 ^ 15 - 1) / peak (mkNote π 0 440)),
          toInt16 ((samplePair π 0 440
            ((0 : ℝ) + (0.5 - 0) * ((0 : ℕ) : ℝ) / 22050)).2 *
            (2 ^ 15 - 1) / peak (mkNote π 0 440))).2 ∧
        (toInt16 ((samplePair π 0 440
            ((0 : ℝ) + (0.5 - 0) * ((0 : ℕ) : ℝ) / 22050)).1 *
            (2 ^ 15 - 1) / peak (mkNote π 0 440)),
          toInt16 ((samplePair π 0 440
            ((0 : ℝ) + (0.5 - 0) * ((0 : ℕ) : ℝ) / 22050)).2 *
            (2 ^ 15 - 1) / peak (mkNote π 0 440))).2 ≤ 32767) := by
  have hp : peak (mkNote π 0 440) ≠ 0 :=
    ne_of_gt (peak_mkNote_pos π 0 440 (by norm_num) (by norm_num))
  have hmem : (toInt16 ((samplePair π 0 440
        ((0 : ℝ) + (0.5 - 0) * ((0 : ℕ) : ℝ) / 22050)).1 *
        (2 ^ 15 - 1) / peak (mkNote π 0 440)),
      toInt16 ((samplePair π 0 440
        ((0 : ℝ) + (0.5 - 0) * ((0 : ℕ) : ℝ) / 22050)).2 *
        (2 ^ 15 - 1) / peak (mkNote π 0 440))) ∈
      quantize16 (normScale (mkNote π 0 440)) := by
    unfold quantize16
    apply List.mem_map.mpr
    refine ⟨((samplePair π 0 440
        ((0 : ℝ) + (0.5 - 0) * ((0 : ℕ) : ℝ) / 22050)).1 *
        (2 ^ 15 - 1) / peak (mkNote π 0 440),
      (samplePair π 0 440
        ((0 : ℝ) + (0.5 - 0) * ((0 : ℕ) : ℝ) / 22050)).2 *
        (2 ^ 15 - 1) / peak (mkNote π 0 440)), ?_, rfl⟩
    unfold normScale
    apply List.mem_map.mpr
    exact ⟨samplePair π 0 440 ((0 : ℝ) + (0.5 - 0) * ((0 : ℕ) : ℝ) / 22050),
      samplePair_mem π 0 440 _ (timeGrid_mem 0 (by norm_num)), rfl⟩
  exact ⟨hp, claim10_quantized_in_range π 0 440 hp _ hmem⟩

end
